import Mathlib

/-!
# mmal-renderer-test: plane layout, frame generator and flow control

A shallow embedding of `src/mmal-renderer-test.c`.

* `uint32_t` values are natural numbers, and every `uint32_t` operation is
  reduced modulo `UINT32_MOD`.
* `int` values are integers; `/` and `%` on them are the truncating
  `Int.tdiv` and `Int.tmod` of C.
* A frame buffer is a function from byte index to byte value; `render_image`
  is the sequence of `memset` calls of the three row loops, run against a
  buffer of `image_size` bytes.
* The mutex-protected critical sections of the producer loop and of
  `input_port_cb` are the atomic steps of a transition system over the
  counter `buffers_in_use`.
-/

namespace MmalRendererTest

/-! ## Machine integers -/

/-- Number of values of a `uint32_t`. -/
def UINT32_MOD : Nat := 4294967296

/-- Largest value of a C `int`. -/
def INT_MAX : Int := 2147483647

/-- Conversion of an `int` to `uint32_t` (reduction modulo 2^32). -/
def to_uint32 (x : Int) : Nat := (x % (UINT32_MOD : Int)).toNat

/-- Two's complement reduction of an integer to the range of a C `int`. -/
def wrap_int (x : Int) : Int := (x + 2147483648) % 4294967296 - 2147483648

/-! ## Layout computation (lines 15-19, 120-130, 251-260) -/

/-- The function `align`: `x` rounded up to a multiple of `y`, in `uint32_t`
arithmetic.  The subtraction never borrows because `x % y < y`. -/
def align (x y : Nat) : Nat :=
  let mod := x % y
  if mod = 0 then x else (x + y - mod) % UINT32_MOD

/-- The struct `plane_t`; all three fields are `uint32_t`. -/
structure plane_t where
  offset : Nat
  pitch : Nat
  height : Nat
deriving DecidableEq

/-- Assignment to element `i` of the array `layout`. -/
def set_plane (layout : Nat → plane_t) (i : Nat) (p : plane_t) : Nat → plane_t :=
  fun k => if k = i then p else layout k

/-- One iteration of the loop `for(i = 0; i < 3; ++i)` of lines 121-129. -/
def layout_iter (width height : Int) (layout : Nat → plane_t) (i : Nat) : Nat → plane_t :=
  let layout := set_plane layout i { layout i with pitch := align (to_uint32 width) 32 }
  let layout := set_plane layout i { layout i with height := align (to_uint32 height) 16 }
  if 0 < i then
    let layout := set_plane layout i { layout i with
      offset := ((layout (i - 1)).offset
        + (layout (i - 1)).pitch * (layout (i - 1)).height % UINT32_MOD) % UINT32_MOD }
    let layout := set_plane layout i { layout i with pitch := (layout i).pitch / 2 }
    set_plane layout i { layout i with height := (layout i).height / 2 }
  else layout

/-- The array `data.layout` after lines 120-129, starting from the zeroed
struct left by the `memset` of line 60. -/
def main_layout (width height : Int) : Nat → plane_t :=
  let layout : Nat → plane_t := fun _ => ⟨0, 0, 0⟩
  let layout := set_plane layout 0 { layout 0 with offset := 0 }
  (List.range 3).foldl (layout_iter width height) layout

/-- The field `data.image_size` after line 130. -/
def main_image_size (width height : Int) : Nat :=
  let layout := main_layout width height
  ((layout 2).offset + (layout 2).pitch * (layout 2).height % UINT32_MOD) % UINT32_MOD

/-- The fields of the struct `data_t` read by `render_image`.  The handles
(`component`, `input`, `pool`, `mutex`, `cond`) and `buffer_num` play no part
in the layout or in the frame content; `buffers_in_use` lives in `flow_t`. -/
structure data_t where
  width : Int
  height : Int
  layout : Nat → plane_t
  image_size : Nat
  line_x : Int
  line_y : Int

/-- The struct `data` as the producer loop holds it for positive `width` and
`height`, at the animation state `line_x`, `line_y`. -/
def main_data (width height line_x line_y : Int) : data_t :=
  { width := width
    height := height
    layout := main_layout width height
    image_size := main_image_size width height
    line_x := line_x
    line_y := line_y }

/-- The plane sizes of `main_layout` added up as exact integers, without the
reduction modulo 2^32 of the `uint32_t` fields. -/
def exact_image_size (width height : Int) : Nat :=
  (main_layout width height 0).pitch * (main_layout width height 0).height
    + (main_layout width height 1).pitch * (main_layout width height 1).height
    + (main_layout width height 2).pitch * (main_layout width height 2).height

/-- The layout arithmetic of lines 120-130 does not wrap: the exact size of
the three planes is representable in a `uint32_t`. -/
def layout_no_wrap (width height : Int) : Prop :=
  exact_image_size width height < UINT32_MOD

instance (width height : Int) : Decidable (layout_no_wrap width height) := by
  unfold layout_no_wrap; infer_instance

/-! ## Animation state (lines 185-186) -/

/-- The update `line = (line + 2) % size` of lines 185 and 186. -/
def advance (size line : Int) : Int := Int.tmod (wrap_int (line + 2)) size

/-- The value of `line` after `n` iterations of the producer loop. -/
def advance_n (size : Int) : Nat → Int → Int
  | 0, line => line
  | n + 1, line => advance_n size n (advance size line)

/-! ## Frame generator (lines 262-329) -/

/-- A frame buffer: byte index to byte value. -/
abbrev image_t := Int → Nat

/-- One call `memset(image + dst, c, n)`.  The length `n` is the value of the
argument expression before its conversion to `size_t`. -/
structure memset_call where
  dst : Int
  c : Nat
  n : Int
deriving DecidableEq

/-- Effect of one `memset` on the buffer. -/
def memset (image : image_t) (m : memset_call) : image_t :=
  fun k => if m.dst ≤ k ∧ k < m.dst + m.n then m.c else image k

/-- The call has a non-negative length and stays inside a buffer of `size`
bytes.  A negative length converts to a `size_t` larger than any buffer. -/
def memset_ok (size : Nat) (m : memset_call) : Prop :=
  0 ≤ m.n ∧ 0 ≤ m.dst ∧ m.dst + m.n ≤ size

instance (size : Nat) (m : memset_call) : Decidable (memset_ok size m) := by
  unfold memset_ok; infer_instance

/-- Byte index `k` is written by the call `m`. -/
def memset_call.writes (m : memset_call) (k : Int) : Prop :=
  m.dst ≤ k ∧ k < m.dst + m.n

instance (m : memset_call) (k : Int) : Decidable (m.writes k) := by
  unfold memset_call.writes; infer_instance

/-- The calls of `for(i = 0; i < n; ++i)` with body `row i`, in program order. -/
def for_rows (row : Nat → List memset_call) : Nat → List memset_call
  | 0 => []
  | n + 1 => for_rows row n ++ row n

/-- Body of the luma loop (lines 279-294) for row `i`; `y` is
`layout[0].offset + i * layout[0].pitch`. -/
def luma_row (d : data_t) (i : Nat) : List memset_call :=
  let y : Int := ((d.layout 0).offset : Int) + (i : Int) * ((d.layout 0).pitch : Int)
  let col : Nat :=
    if Int.tdiv (i : Int) 2 = Int.tdiv d.line_y 2 then 76
    else if (i : Int) < d.height then 255
    else 149
  [ ⟨y, col, d.line_x⟩,
    ⟨y + d.line_x, 76, 2⟩,
    ⟨y + d.line_x + 2, col, d.width - d.line_x - 2⟩,
    ⟨y + d.width, 149, (((d.layout 0).pitch : Int) - d.width) % (UINT32_MOD : Int)⟩ ]

/-- Body of the first chroma loop (lines 296-311) for row `i`. -/
def u_row (d : data_t) (i : Nat) : List memset_call :=
  let u : Int := ((d.layout 1).offset : Int) + (i : Int) * ((d.layout 1).pitch : Int)
  let col : Nat :=
    if (i : Int) = Int.tdiv d.line_y 2 then 84
    else if (i : Int) < Int.tdiv d.height 2 then 128
    else 43
  [ ⟨u, col, Int.tdiv d.line_x 2⟩,
    ⟨u + Int.tdiv d.line_x 2, 84, 1⟩,
    ⟨u + Int.tdiv d.line_x 2 + 1, col, Int.tdiv d.width 2 - Int.tdiv d.line_x 2 - 1⟩,
    ⟨u + Int.tdiv d.width 2, 43,
      (((d.layout 1).pitch : Int) - Int.tdiv d.width 2) % (UINT32_MOD : Int)⟩ ]

/-- Body of the second chroma loop (lines 313-328) for row `i`. -/
def v_row (d : data_t) (i : Nat) : List memset_call :=
  let v : Int := ((d.layout 2).offset : Int) + (i : Int) * ((d.layout 2).pitch : Int)
  let col : Nat :=
    if (i : Int) = Int.tdiv d.line_y 2 then 255
    else if (i : Int) < Int.tdiv d.height 2 then 128
    else 21
  [ ⟨v, col, Int.tdiv d.line_x 2⟩,
    ⟨v + Int.tdiv d.line_x 2, 255, 1⟩,
    ⟨v + Int.tdiv d.line_x 2 + 1, col, Int.tdiv d.width 2 - Int.tdiv d.line_x 2 - 1⟩,
    ⟨v + Int.tdiv d.width 2, 21,
      (((d.layout 2).pitch : Int) - Int.tdiv d.width 2) % (UINT32_MOD : Int)⟩ ]

/-- Every `memset` call of `render_image`, in program order. -/
def render_calls (d : data_t) : List memset_call :=
  for_rows (luma_row d) (d.layout 0).height
    ++ for_rows (u_row d) (d.layout 1).height
    ++ for_rows (v_row d) (d.layout 2).height

/-- Runs the calls in order against a buffer of `size` bytes; `none` as soon
as one call has a negative length or leaves the buffer. -/
def run_memsets (size : Nat) : List memset_call → image_t → Option image_t
  | [], image => some image
  | m :: ms, image =>
    if memset_ok size m then run_memsets size ms (memset image m) else none

/-- The function `render_image` on the buffer `image` of `data->image_size`
bytes (the pool of line 153 allocates buffers of that size). -/
def render_image (d : data_t) (image : image_t) : Option image_t :=
  run_memsets d.image_size (render_calls d) image

/-- Layout and buffer size correspond: every pitch is a `uint32_t` and holds
the visible row, the planes follow one another without overlap, and the last
plane ends inside the buffer. -/
def valid_layout (d : data_t) : Prop :=
  (d.layout 0).pitch < UINT32_MOD ∧ (d.layout 1).pitch < UINT32_MOD
    ∧ (d.layout 2).pitch < UINT32_MOD
    ∧ d.width ≤ (d.layout 0).pitch
    ∧ Int.tdiv d.width 2 ≤ (d.layout 1).pitch
    ∧ Int.tdiv d.width 2 ≤ (d.layout 2).pitch
    ∧ (d.layout 0).offset + (d.layout 0).pitch * (d.layout 0).height ≤ (d.layout 1).offset
    ∧ (d.layout 1).offset + (d.layout 1).pitch * (d.layout 1).height ≤ (d.layout 2).offset
    ∧ (d.layout 2).offset + (d.layout 2).pitch * (d.layout 2).height ≤ d.image_size

instance (d : data_t) : Decidable (valid_layout d) := by
  unfold valid_layout; infer_instance

/-- Luma byte of row `i`, column `j`, as the specification words it. -/
def luma_spec (d : data_t) (i j : Nat) : Nat :=
  if d.width ≤ (j : Int) then 149
  else if (j : Int) = d.line_x ∨ (j : Int) = d.line_x + 1 then 76
  else if (i : Int) / 2 = d.line_y / 2 then 76
  else if (i : Int) < d.height then 255
  else 149

/-- Chroma byte of row `i`, column `j`, as the specification words it, for
the colour triple `highlight`, `foreground`, `pad`. -/
def chroma_spec (d : data_t) (highlight foreground pad : Nat) (i j : Nat) : Nat :=
  if d.width / 2 ≤ (j : Int) then pad
  else if (j : Int) = d.line_x / 2 then highlight
  else if (i : Int) = d.line_y / 2 then highlight
  else if (i : Int) < d.height / 2 then foreground
  else pad

/-! ## Flow control (lines 177-183, 343-353) -/

/-- The counter `data.buffers_in_use` with two history variables:
`in_flight`, the buffers handed to the sink by `mmal_port_send_buffer` and not
yet returned through `input_port_cb`, and `signals`, the number of calls of
`pthread_cond_signal` so far. -/
structure flow_t where
  buffers_in_use : Int
  in_flight : Nat
  signals : Nat
deriving DecidableEq

/-- The state after the `memset` of line 60. -/
def flow_init : flow_t := ⟨0, 0, 0⟩

/-- The guard of the wait loop of line 178: the producer stays in
`pthread_cond_wait` while it holds. -/
def submit_blocked (s : flow_t) : Prop := s.buffers_in_use > 1

instance (s : flow_t) : Decidable (submit_blocked s) := by
  unfold submit_blocked; infer_instance

/-- The critical section of lines 177-183 once the wait loop is left: the
buffer is sent and the counter incremented.  `none` while the guard holds. -/
def submit (s : flow_t) : Option flow_t :=
  if submit_blocked s then none
  else some { s with buffers_in_use := s.buffers_in_use + 1, in_flight := s.in_flight + 1 }

/-- The callback `input_port_cb` (lines 343-353).  The sink calls it only for
a buffer it was sent and has not returned; `none` when there is none. -/
def input_port_cb (s : flow_t) : Option flow_t :=
  if s.in_flight = 0 then none
  else
    let buffers_in_use := s.buffers_in_use - 1
    some { buffers_in_use := buffers_in_use
           in_flight := s.in_flight - 1
           signals := if buffers_in_use ≤ 1 then s.signals + 1 else s.signals }

/-- The two atomic steps of the flow controller. -/
inductive flow_event where
  | submit
  | release
deriving DecidableEq

/-- One step of the flow controller. -/
def flow_step (s : flow_t) : flow_event → Option flow_t
  | .submit => submit s
  | .release => input_port_cb s

/-- An interleaving of steps from state `s`; `none` when a step of the
interleaving is not enabled. -/
def flow_run (s : flow_t) : List flow_event → Option flow_t
  | [] => some s
  | e :: es => (flow_step s e).bind (fun t => flow_run t es)

/-- The four calls of one row: `a` bytes of `col`, a band of `b` bytes of
`hi`, `col` up to the visible width `wv`, then `pv` bytes of `pad`.  The three
row bodies are instances of it. -/
def band_row (y : Int) (col hi pad : Nat) (a b wv pv : Int) : List memset_call :=
  [ ⟨y, col, a⟩, ⟨y + a, hi, b⟩, ⟨y + a + b, col, wv - a - b⟩, ⟨y + wv, pad, pv⟩ ]

/-- Byte at column `j` of a row written by `band_row`. -/
def band_byte (col hi pad : Nat) (a b wv : Int) (j : Int) : Nat :=
  if wv ≤ j then pad else if a ≤ j ∧ j < a + b then hi else col

/-- Row colour of the luma loop (lines 280-288). -/
def luma_col (d : data_t) (i : Nat) : Nat :=
  if Int.tdiv (i : Int) 2 = Int.tdiv d.line_y 2 then 76
  else if (i : Int) < d.height then 255
  else 149

/-- Row colour of a chroma loop (lines 297-305, 314-322). -/
def chroma_col (d : data_t) (hi pad : Nat) (i : Nat) : Nat :=
  if (i : Int) = Int.tdiv d.line_y 2 then hi
  else if (i : Int) < Int.tdiv d.height 2 then 128
  else pad

/-- The counter is between 0 and 2 and counts the buffers in flight. -/
def flow_inv (s : flow_t) : Prop :=
  0 ≤ s.buffers_in_use ∧ s.buffers_in_use ≤ 2 ∧ s.buffers_in_use = (s.in_flight : Int)

/-! ## Layout: basic facts -/

theorem to_uint32_of_range (x : Int) (h0 : 0 ≤ x) (h1 : x ≤ INT_MAX) :
    (to_uint32 x : Int) = x := by
  unfold to_uint32 UINT32_MOD
  unfold INT_MAX at h1
  omega

theorem align_spec (x y : Nat) (hy : 0 < y) (hx : x + y ≤ UINT32_MOD) :
    align x y % y = 0 ∧ x ≤ align x y ∧ align x y < x + y := by
  unfold align
  simp only
  have hm : x % y < y := Nat.mod_lt _ hy
  split
  · rename_i h0
    exact ⟨h0, le_refl _, by omega⟩
  · rename_i h0
    have hlt : x + y - x % y < UINT32_MOD := by omega
    rw [Nat.mod_eq_of_lt hlt]
    refine ⟨?_, by omega, by omega⟩
    have hdm := Nat.div_add_mod x y
    have hxy : x + y - x % y = y * (x / y + 1) := by
      rw [Nat.mul_add, Nat.mul_one]; omega
    rw [hxy]; exact Nat.mul_mod_right _ _

theorem main_layout_0 (w h : Int) :
    main_layout w h 0 = ⟨0, align (to_uint32 w) 32, align (to_uint32 h) 16⟩ := rfl

theorem main_layout_1 (w h : Int) : main_layout w h 1 =
    ⟨(0 + align (to_uint32 w) 32 * align (to_uint32 h) 16 % UINT32_MOD) % UINT32_MOD,
      align (to_uint32 w) 32 / 2, align (to_uint32 h) 16 / 2⟩ := rfl

theorem main_layout_2 (w h : Int) : main_layout w h 2 =
    ⟨((main_layout w h 1).offset
        + (align (to_uint32 w) 32 / 2) * (align (to_uint32 h) 16 / 2) % UINT32_MOD) % UINT32_MOD,
      align (to_uint32 w) 32 / 2, align (to_uint32 h) 16 / 2⟩ := rfl

/-- Stride and height of the luma plane for `int` arguments in range. -/
theorem luma_dims (w h : Int) (hw : 0 < w) (hw' : w ≤ INT_MAX) (hh : 0 < h)
    (hh' : h ≤ INT_MAX) :
    align (to_uint32 w) 32 % 32 = 0 ∧ w ≤ (align (to_uint32 w) 32 : Int)
      ∧ (align (to_uint32 w) 32 : Int) < w + 32
      ∧ align (to_uint32 h) 16 % 16 = 0 ∧ h ≤ (align (to_uint32 h) 16 : Int)
      ∧ (align (to_uint32 h) 16 : Int) < h + 16 := by
  have hcw := to_uint32_of_range w (le_of_lt hw) hw'
  have hch := to_uint32_of_range h (le_of_lt hh) hh'
  have hw2 : to_uint32 w + 32 ≤ UINT32_MOD := by
    unfold INT_MAX at hw'; unfold UINT32_MOD; omega
  have hh2 : to_uint32 h + 16 ≤ UINT32_MOD := by
    unfold INT_MAX at hh'; unfold UINT32_MOD; omega
  obtain ⟨a1, a2, a3⟩ := align_spec (to_uint32 w) 32 (by decide) hw2
  obtain ⟨b1, b2, b3⟩ := align_spec (to_uint32 h) 16 (by decide) hh2
  refine ⟨a1, ?_, ?_, b1, ?_, ?_⟩ <;> omega

/-- Without wrap-around the offsets and the size are the exact sums. -/
theorem layout_exact (w h : Int) (hn : layout_no_wrap w h) :
    (main_layout w h 1).offset
        = (main_layout w h 0).pitch * (main_layout w h 0).height
      ∧ (main_layout w h 2).offset
        = (main_layout w h 1).offset
          + (main_layout w h 1).pitch * (main_layout w h 1).height
      ∧ main_image_size w h
        = (main_layout w h 2).offset
          + (main_layout w h 2).pitch * (main_layout w h 2).height := by
  unfold layout_no_wrap exact_image_size at hn
  unfold main_image_size
  simp only [main_layout_0, main_layout_1, main_layout_2] at hn ⊢
  generalize align (to_uint32 w) 32 * align (to_uint32 h) 16 = A at hn ⊢
  generalize align (to_uint32 w) 32 / 2 * (align (to_uint32 h) 16 / 2) = B at hn ⊢
  have hA : A % UINT32_MOD = A := Nat.mod_eq_of_lt (by omega)
  have hB : B % UINT32_MOD = B := Nat.mod_eq_of_lt (by omega)
  have hAB : (A + B) % UINT32_MOD = A + B := Nat.mod_eq_of_lt (by omega)
  have hABB : (A + B + B) % UINT32_MOD = A + B + B := Nat.mod_eq_of_lt (by omega)
  simp only [Nat.zero_add, hA, hB, hAB, hABB, and_self]

/-! ## Layout: claims -/

/-- C1: for positive `int` width and height the luma stride is a multiple of
32 and the luma height a multiple of 16, both chroma strides are multiples of
16 and both chroma heights multiples of 8, and each chroma stride and height
is exactly half the luma one. -/
theorem layout_alignment (w h : Int) (hw : 0 < w) (hw' : w ≤ INT_MAX) (hh : 0 < h)
    (hh' : h ≤ INT_MAX) :
    (main_layout w h 0).pitch % 32 = 0 ∧ (main_layout w h 0).height % 16 = 0
      ∧ (main_layout w h 1).pitch % 16 = 0 ∧ (main_layout w h 2).pitch % 16 = 0
      ∧ (main_layout w h 1).height % 8 = 0 ∧ (main_layout w h 2).height % 8 = 0
      ∧ 2 * (main_layout w h 1).pitch = (main_layout w h 0).pitch
      ∧ 2 * (main_layout w h 2).pitch = (main_layout w h 0).pitch
      ∧ 2 * (main_layout w h 1).height = (main_layout w h 0).height
      ∧ 2 * (main_layout w h 2).height = (main_layout w h 0).height := by
  obtain ⟨a1, -, -, b1, -, -⟩ := luma_dims w h hw hw' hh hh'
  simp only [main_layout_0, main_layout_1, main_layout_2]
  omega

theorem layout_alignment_witness :
    (main_layout 1920 1080 0).pitch % 32 = 0 ∧ (main_layout 1920 1080 0).height % 16 = 0
      ∧ (main_layout 1920 1080 1).pitch % 16 = 0 ∧ (main_layout 1920 1080 2).pitch % 16 = 0
      ∧ (main_layout 1920 1080 1).height % 8 = 0 ∧ (main_layout 1920 1080 2).height % 8 = 0
      ∧ 2 * (main_layout 1920 1080 1).pitch = (main_layout 1920 1080 0).pitch
      ∧ 2 * (main_layout 1920 1080 2).pitch = (main_layout 1920 1080 0).pitch
      ∧ 2 * (main_layout 1920 1080 1).height = (main_layout 1920 1080 0).height
      ∧ 2 * (main_layout 1920 1080 2).height = (main_layout 1920 1080 0).height :=
  layout_alignment 1920 1080 (by decide) (by decide) (by decide) (by decide)

/-- C2 fails as stated: at width 65536 and height 65536 the `uint32_t`
products wrap, `image_size` is 2^31, and twice that is below
`3 * width * height`. -/
theorem image_size_bound_fails :
    (0 : Int) < 65536 ∧ (65536 : Int) ≤ INT_MAX
      ∧ main_image_size 65536 65536 = 2147483648
      ∧ ¬ (3 * (65536 : Int) * 65536 ≤ 2 * (main_image_size 65536 65536 : Int)) := by
  decide

/-- C2 amended: for positive `int` width and height whose layout arithmetic
does not wrap, `image_size` is the exact sum of the three plane sizes and
`2 * image_size ≥ 3 * width * height`. -/
theorem image_size_lower_bound (w h : Int) (hw : 0 < w) (hw' : w ≤ INT_MAX) (hh : 0 < h)
    (hh' : h ≤ INT_MAX) (hn : layout_no_wrap w h) :
    main_image_size w h = exact_image_size w h
      ∧ 3 * w * h ≤ 2 * (main_image_size w h : Int) := by
  obtain ⟨a1, a2, -, b1, b2, -⟩ := luma_dims w h hw hw' hh hh'
  obtain ⟨e1, e2, e3⟩ := layout_exact w h hn
  have hsz : main_image_size w h = exact_image_size w h := by
    rw [e3, e2, e1]; rfl
  refine ⟨hsz, ?_⟩
  rw [hsz]
  unfold exact_image_size
  simp only [main_layout_0, main_layout_1, main_layout_2]
  generalize align (to_uint32 w) 32 = P at a1 a2 ⊢
  generalize align (to_uint32 h) 16 = H at b1 b2 ⊢
  obtain ⟨p, rfl⟩ : ∃ p, P = 2 * p := ⟨P / 2, by omega⟩
  obtain ⟨q, rfl⟩ : ∃ q, H = 2 * q := ⟨H / 2, by omega⟩
  have hp : 2 * p / 2 = p := by omega
  have hq : 2 * q / 2 = q := by omega
  rw [hp, hq]
  push_cast at a2 b2 ⊢
  have hwh : w * h ≤ (2 * (p : Int)) * (2 * (q : Int)) :=
    mul_le_mul a2 b2 (le_of_lt hh) (by omega)
  nlinarith [hwh]

theorem image_size_lower_bound_witness :
    main_image_size 1920 1080 = exact_image_size 1920 1080
      ∧ 3 * (1920 : Int) * 1080 ≤ 2 * (main_image_size 1920 1080 : Int) :=
  image_size_lower_bound 1920 1080 (by decide) (by decide) (by decide) (by decide)
    (by decide)

/-- C3 fails as stated: at width 65536 and height 65536 the luma plane has
2^32 bytes, `layout[1].offset` wraps to 0, and the first chroma plane starts
inside the luma plane. -/
theorem layout_back_to_back_fails :
    (0 : Int) < 65536 ∧ (65536 : Int) ≤ INT_MAX
      ∧ (main_layout 65536 65536 0).pitch * (main_layout 65536 65536 0).height = 4294967296
      ∧ (main_layout 65536 65536 1).offset = 0
      ∧ (main_layout 65536 65536 1).offset
        ≠ (main_layout 65536 65536 0).offset
          + (main_layout 65536 65536 0).pitch * (main_layout 65536 65536 0).height := by
  decide

/-- C3 amended: for positive `int` width and height, plane 0 starts at 0 and
each later offset, and `image_size`, is the previous offset plus the previous
plane size modulo 2^32; when the layout arithmetic does not wrap these are
exact sums, so the planes lie back to back.  At 1920 by 1080 the strides,
heights, offsets and size are 1920, 1088, 960, 544, 0 / 2088960 / 2611200 and
3133440. -/
theorem layout_back_to_back (w h : Int) (hw : 0 < w) (hw' : w ≤ INT_MAX) (hh : 0 < h)
    (hh' : h ≤ INT_MAX) :
    (main_layout w h 0).offset = 0
      ∧ (main_layout w h 1).offset
        = ((main_layout w h 0).offset
          + (main_layout w h 0).pitch * (main_layout w h 0).height) % UINT32_MOD
      ∧ (main_layout w h 2).offset
        = ((main_layout w h 1).offset
          + (main_layout w h 1).pitch * (main_layout w h 1).height) % UINT32_MOD
      ∧ main_image_size w h
        = ((main_layout w h 2).offset
          + (main_layout w h 2).pitch * (main_layout w h 2).height) % UINT32_MOD
      ∧ (layout_no_wrap w h →
          (main_layout w h 1).offset
            = (main_layout w h 0).offset
              + (main_layout w h 0).pitch * (main_layout w h 0).height
          ∧ (main_layout w h 2).offset
            = (main_layout w h 1).offset
              + (main_layout w h 1).pitch * (main_layout w h 1).height
          ∧ main_image_size w h
            = (main_layout w h 2).offset
              + (main_layout w h 2).pitch * (main_layout w h 2).height)
      ∧ (w = 1920 → h = 1080 →
          (main_layout w h 0).pitch = 1920 ∧ (main_layout w h 0).height = 1088
          ∧ (main_layout w h 1).pitch = 960 ∧ (main_layout w h 1).height = 544
          ∧ (main_layout w h 2).pitch = 960 ∧ (main_layout w h 2).height = 544
          ∧ (main_layout w h 0).offset = 0 ∧ (main_layout w h 1).offset = 2088960
          ∧ (main_layout w h 2).offset = 2611200
          ∧ main_image_size w h = 3133440
          ∧ main_image_size w h = 1920 * 1088 + 2 * 960 * 544) := by
  refine ⟨rfl, ?_, ?_, ?_, ?_, ?_⟩
  · simp only [main_layout_0, main_layout_1, Nat.add_mod_mod]
  · simp only [main_layout_1, main_layout_2, Nat.add_mod_mod]
  · unfold main_image_size
    simp only [Nat.add_mod_mod]
  · intro hn
    obtain ⟨e1, e2, e3⟩ := layout_exact w h hn
    refine ⟨?_, e2, e3⟩
    rw [e1, main_layout_0]; simp
  · rintro rfl rfl
    decide

theorem layout_back_to_back_witness :
    layout_no_wrap 1920 1080
      ∧ (main_layout 1920 1080 1).offset
        = (main_layout 1920 1080 0).offset
          + (main_layout 1920 1080 0).pitch * (main_layout 1920 1080 0).height
      ∧ main_image_size 1920 1080 = 3133440 :=
  have t := layout_back_to_back 1920 1080 (by decide) (by decide) (by decide) (by decide)
  ⟨by decide, (t.2.2.2.2.1 (by decide)).1, (t.2.2.2.2.2 rfl rfl).2.2.2.2.2.2.2.2.2.1⟩

/-! ## Flow control: claims -/

theorem flow_inv_step (s t : flow_t) (e : flow_event) (hs : flow_inv s)
    (h : flow_step s e = some t) : flow_inv t := by
  obtain ⟨h0, h2, hc⟩ := hs
  cases e with
  | submit =>
    simp only [flow_step, submit, submit_blocked] at h
    split at h
    · exact absurd h (by simp)
    · rename_i hg
      simp only [Option.some.injEq] at h
      subst h
      refine ⟨?_, ?_, ?_⟩ <;> simp only [] <;> push_cast <;> omega
  | release =>
    simp only [flow_step, input_port_cb] at h
    split at h
    · exact absurd h (by simp)
    · rename_i hg
      simp only [Option.some.injEq] at h
      subst h
      refine ⟨?_, ?_, ?_⟩ <;> simp only [] <;> omega

theorem flow_inv_run (es : List flow_event) :
    ∀ s t : flow_t, flow_inv s → flow_run s es = some t → flow_inv t := by
  induction es with
  | nil =>
    intro s t hs h
    simp only [flow_run, Option.some.injEq] at h
    exact h ▸ hs
  | cons e es ih =>
    intro s t hs h
    simp only [flow_run] at h
    cases hstep : flow_step s e with
    | none => rw [hstep] at h; exact absurd h (by simp)
    | some u =>
      rw [hstep] at h
      exact ih u t (flow_inv_step s u e hs hstep) h

theorem flow_step_count (s t : flow_t) (e : flow_event) (h : flow_step s e = some t) :
    t.buffers_in_use = s.buffers_in_use + (([e].count .submit : Nat) : Int)
      - (([e].count .release : Nat) : Int) := by
  cases e with
  | submit =>
    simp only [flow_step, submit] at h
    split at h
    · exact absurd h (by simp)
    · simp only [Option.some.injEq] at h
      subst h
      simp
  | release =>
    simp only [flow_step, input_port_cb] at h
    split at h
    · exact absurd h (by simp)
    · simp only [Option.some.injEq] at h
      subst h
      simp

theorem flow_run_count (es : List flow_event) :
    ∀ s t : flow_t, flow_run s es = some t →
      t.buffers_in_use = s.buffers_in_use + ((es.count .submit : Nat) : Int)
        - ((es.count .release : Nat) : Int) := by
  induction es with
  | nil =>
    intro s t h
    simp only [flow_run, Option.some.injEq] at h
    subst h
    simp
  | cons e es ih =>
    intro s t h
    simp only [flow_run] at h
    cases hstep : flow_step s e with
    | none => rw [hstep] at h; exact absurd h (by simp)
    | some u =>
      rw [hstep] at h
      have h1 := flow_step_count s u e hstep
      have h2 := ih u t h
      have c1 : (e :: es).count .submit = [e].count .submit + es.count .submit := by
        rw [← List.count_append]; rfl
      have c2 : (e :: es).count .release = [e].count .release + es.count .release := by
        rw [← List.count_append]; rfl
      rw [c1, c2]
      push_cast
      omega

/-- C4: in every state reached from `buffers_in_use = 0` by any interleaving
of submit and release steps, `buffers_in_use` is 0, 1 or 2, equals the number
of buffers submitted and not yet released (the submit steps minus the release
steps of the interleaving, which is the history variable `in_flight`), and
never exceeds 2. -/
theorem flow_counter_bounded (es : List flow_event) (s : flow_t)
    (h : flow_run flow_init es = some s) :
    (s.buffers_in_use = 0 ∨ s.buffers_in_use = 1 ∨ s.buffers_in_use = 2)
      ∧ s.buffers_in_use
        = ((es.count .submit : Nat) : Int) - ((es.count .release : Nat) : Int)
      ∧ s.buffers_in_use = (s.in_flight : Int) ∧ s.buffers_in_use ≤ 2 := by
  have hi : flow_inv flow_init := ⟨by decide, by decide, by decide⟩
  obtain ⟨h0, h2, hc⟩ := flow_inv_run es flow_init s hi h
  have hn := flow_run_count es flow_init s h
  simp only [flow_init, zero_add] at hn
  refine ⟨by omega, hn, hc, h2⟩

theorem flow_counter_bounded_witness :
    flow_run flow_init [.submit, .submit, .release] = some ⟨1, 1, 1⟩
      ∧ (((1 : Int) = 0 ∨ (1 : Int) = 1 ∨ (1 : Int) = 2)
        ∧ (1 : Int) = ((([.submit, .submit, .release] : List flow_event).count .submit : Nat) : Int)
          - ((([.submit, .submit, .release] : List flow_event).count .release : Nat) : Int)
        ∧ (1 : Int) = ((1 : Nat) : Int) ∧ (1 : Int) ≤ 2) :=
  ⟨by decide,
    flow_counter_bounded [.submit, .submit, .release] ⟨1, 1, 1⟩ (by decide)⟩

/-- C5: from `buffers_in_use = 0` two submits give 2 and the wait guard
holds, so a third submit cannot proceed; one release gives 1 and issues one
signal; exactly one more submit proceeds, back to 2, and the next is blocked
again. -/
theorem flow_block_and_wake :
    flow_run flow_init [.submit, .submit] = some ⟨2, 2, 0⟩
      ∧ submit_blocked ⟨2, 2, 0⟩
      ∧ submit ⟨2, 2, 0⟩ = none
      ∧ flow_run flow_init [.submit, .submit, .submit] = none
      ∧ input_port_cb ⟨2, 2, 0⟩ = some ⟨1, 1, 1⟩
      ∧ ¬ submit_blocked ⟨1, 1, 1⟩
      ∧ submit ⟨1, 1, 1⟩ = some ⟨2, 2, 1⟩
      ∧ submit_blocked ⟨2, 2, 1⟩
      ∧ submit ⟨2, 2, 1⟩ = none
      ∧ flow_run flow_init [.submit, .submit, .release, .submit] = some ⟨2, 2, 1⟩
      ∧ flow_run flow_init [.submit, .submit, .release, .submit, .submit] = none := by
  decide

/-! ## Animation state: claims -/

theorem wrap_int_of_range (x : Int) (h0 : -2147483648 ≤ x) (h1 : x ≤ INT_MAX) :
    wrap_int x = x := by
  unfold wrap_int
  unfold INT_MAX at h1
  omega

theorem advance_eq (w x : Int) (hx0 : 0 ≤ x) (hx : x < w) (hmax : x + 2 ≤ INT_MAX) :
    advance w x = (x + 2) % w := by
  unfold advance
  rw [wrap_int_of_range (x + 2) (by omega) hmax]
  exact Int.tmod_eq_emod (by omega) (by omega)

theorem advance_n_eq (w : Int) (hw : 0 < w) (hmax : w + 1 ≤ INT_MAX) (n : Nat) :
    ∀ x : Int, 0 ≤ x → x < w → advance_n w n x = (x + 2 * (n : Int)) % w := by
  induction n with
  | zero =>
    intro x hx0 hx
    simp only [advance_n, Nat.cast_zero, mul_zero, add_zero]
    exact (Int.emod_eq_of_lt hx0 hx).symm
  | succ n ih =>
    intro x hx0 hx
    simp only [advance_n]
    rw [advance_eq w x hx0 hx (by omega)]
    rw [ih _ (Int.emod_nonneg _ (by omega)) (Int.emod_lt_of_pos _ hw), Int.emod_add_emod]
    congr 1
    push_cast
    ring

theorem advance_n_half (w x : Int) (hw : 0 < w) (hw' : w ≤ INT_MAX)
    (hpar : w % 2 = 0 ∨ w = 1) (hx0 : 0 ≤ x) (hx : x < w) :
    advance_n w (Int.tdiv w 2).toNat x = x := by
  rcases hpar with he | h1
  · have hdiv : Int.tdiv w 2 = w / 2 := Int.tdiv_eq_ediv (by omega) (by omega)
    have hmax : w + 1 ≤ INT_MAX := by unfold INT_MAX at hw' ⊢; omega
    rw [advance_n_eq w hw hmax _ x hx0 hx, hdiv]
    have h2 : 2 * (((w / 2).toNat : Nat) : Int) = w := by omega
    rw [h2, Int.add_emod_self]
    exact Int.emod_eq_of_lt hx0 hx
  · subst h1
    rfl

/-- C7 fails as stated: with width 3 the update runs `3 / 2 = 1` time and
takes `line_x` from 0 to 2. -/
theorem animation_wrap_fails :
    (0 : Int) < 3 ∧ (0 : Int) ≤ 0 ∧ (0 : Int) < 3
      ∧ advance_n 3 (Int.tdiv 3 2).toNat 0 = 2
      ∧ advance_n 3 (Int.tdiv 3 2).toNat 0 ≠ 0 := by
  decide

/-- C7 amended: for every positive `int` width that is even or equal to 1 and
every `line_x` in `[0, width)`, applying `line_x := (line_x + 2) % width`
exactly `width / 2` times returns `line_x` to its starting value; likewise for
`line_y` with height. -/
theorem animation_wraps (width height line_x line_y : Int)
    (hw : 0 < width) (hw' : width ≤ INT_MAX) (hwpar : width % 2 = 0 ∨ width = 1)
    (hh : 0 < height) (hh' : height ≤ INT_MAX) (hhpar : height % 2 = 0 ∨ height = 1)
    (hx0 : 0 ≤ line_x) (hx : line_x < width) (hy0 : 0 ≤ line_y) (hy : line_y < height) :
    advance_n width (Int.tdiv width 2).toNat line_x = line_x
      ∧ advance_n height (Int.tdiv height 2).toNat line_y = line_y :=
  ⟨advance_n_half width line_x hw hw' hwpar hx0 hx,
    advance_n_half height line_y hh hh' hhpar hy0 hy⟩

theorem animation_wraps_witness :
    advance_n 6 (Int.tdiv 6 2).toNat 4 = 4 ∧ advance_n 1 (Int.tdiv 1 2).toNat 0 = 0 :=
  animation_wraps 6 1 4 0 (by decide) (by decide) (by decide) (by decide) (by decide)
    (by decide) (by decide) (by decide) (by decide) (by decide)

/-! ## Frame generator: rows and planes -/

theorem luma_row_eq (d : data_t) (i : Nat) :
    luma_row d i = band_row (((d.layout 0).offset : Int) + (i : Int) * ((d.layout 0).pitch : Int))
      (luma_col d i) 76 149 d.line_x 2 d.width
      ((((d.layout 0).pitch : Int) - d.width) % (UINT32_MOD : Int)) := rfl

theorem u_row_eq (d : data_t) (i : Nat) :
    u_row d i = band_row (((d.layout 1).offset : Int) + (i : Int) * ((d.layout 1).pitch : Int))
      (chroma_col d 84 43 i) 84 43 (Int.tdiv d.line_x 2) 1 (Int.tdiv d.width 2)
      ((((d.layout 1).pitch : Int) - Int.tdiv d.width 2) % (UINT32_MOD : Int)) := rfl

theorem v_row_eq (d : data_t) (i : Nat) :
    v_row d i = band_row (((d.layout 2).offset : Int) + (i : Int) * ((d.layout 2).pitch : Int))
      (chroma_col d 255 21 i) 255 21 (Int.tdiv d.line_x 2) 1 (Int.tdiv d.width 2)
      ((((d.layout 2).pitch : Int) - Int.tdiv d.width 2) % (UINT32_MOD : Int)) := rfl

theorem mem_for_rows (row : Nat → List memset_call) (m : memset_call) (n : Nat) :
    m ∈ for_rows row n ↔ ∃ i, i < n ∧ m ∈ row i := by
  induction n with
  | zero => simp [for_rows]
  | succ n ih =>
    simp only [for_rows, List.mem_append, ih]
    constructor
    · rintro (⟨i, hi, hm⟩ | hm)
      · exact ⟨i, by omega, hm⟩
      · exact ⟨n, by omega, hm⟩
    · rintro ⟨i, hi, hm⟩
      by_cases h : i = n
      · subst h; exact Or.inr hm
      · exact Or.inl ⟨i, by omega, hm⟩

theorem run_memsets_eq (size : Nat) (calls : List memset_call) :
    ∀ image : image_t, (∀ m ∈ calls, memset_ok size m) →
      run_memsets size calls image = some (calls.foldl memset image) := by
  induction calls with
  | nil => intro image _; rfl
  | cons m ms ih =>
    intro image h
    have hm : memset_ok size m := h m (List.mem_cons_self _ _)
    simp only [run_memsets, hm, if_true, List.foldl_cons]
    exact ih _ (fun m' hm' => h m' (List.mem_cons_of_mem _ hm'))

theorem run_memsets_none (size : Nat) (calls : List memset_call) (m : memset_call)
    (hm : m ∈ calls) (hbad : ¬ memset_ok size m) :
    ∀ image : image_t, run_memsets size calls image = none := by
  induction calls with
  | nil => exact absurd hm (List.not_mem_nil _)
  | cons c cs ih =>
    intro image
    simp only [run_memsets]
    split
    · rcases List.mem_cons.mp hm with h | h
      · subst h; contradiction
      · exact ih h _
    · rfl

theorem band_row_fold (y : Int) (col hi pad : Nat) (a b wv pv p : Int) (ha : 0 ≤ a)
    (hb : 0 ≤ b) (hab : a + b ≤ wv) (hpv : 0 ≤ pv) (hp : wv + pv = p) (image : image_t)
    (k : Int) :
    (band_row y col hi pad a b wv pv).foldl memset image k
      = if y ≤ k ∧ k < y + p then band_byte col hi pad a b wv (k - y) else image k := by
  subst hp
  simp only [band_row, List.foldl_cons, List.foldl_nil, memset, band_byte]
  split_ifs <;> first | rfl | omega

theorem band_row_ok (y : Int) (col hi pad : Nat) (a b wv pv : Int) (ha : 0 ≤ a)
    (hb : 0 ≤ b) (hab : a + b ≤ wv) (hpv : 0 ≤ pv) (m : memset_call)
    (hm : m ∈ band_row y col hi pad a b wv pv) :
    0 ≤ m.n ∧ y ≤ m.dst ∧ m.dst + m.n ≤ y + wv + pv := by
  simp only [band_row, List.mem_cons, List.mem_singleton, List.not_mem_nil, or_false] at hm
  rcases hm with h | h | h | h <;> subst h <;> simp only [] <;> omega

theorem band_row_covers (y : Int) (col hi pad : Nat) (a b wv pv : Int) (k : Int)
    (h0 : y ≤ k) (h1 : k < y + wv + pv) :
    ∃ m ∈ band_row y col hi pad a b wv pv, m.writes k := by
  simp only [band_row, List.mem_cons, List.mem_singleton, List.not_mem_nil, or_false,
    exists_eq_or_imp, exists_eq_left, memset_call.writes]
  omega

/-- A plane of `n` rows of `p` bytes from `base`: bytes outside the plane are
untouched, and byte `j` of row `i` is the byte the row body writes there. -/
theorem plane_fold (base p : Int) (hp : 0 ≤ p) (row : Nat → List memset_call)
    (pix : Nat → Int → Nat)
    (hrow : ∀ (i : Nat) (image : image_t) (k : Int), (row i).foldl memset image k
      = if base + (i : Int) * p ≤ k ∧ k < base + (i : Int) * p + p
        then pix i (k - (base + (i : Int) * p)) else image k)
    (n : Nat) (image : image_t) :
    (∀ k : Int, (k < base ∨ base + (n : Int) * p ≤ k) →
        (for_rows row n).foldl memset image k = image k)
      ∧ (∀ (i : Nat) (j : Int), i < n → 0 ≤ j → j < p →
        (for_rows row n).foldl memset image (base + (i : Int) * p + j) = pix i j) := by
  induction n with
  | zero =>
    refine ⟨fun k _ => rfl, fun i j hi => absurd hi (Nat.not_lt_zero _)⟩
  | succ n ih =>
    obtain ⟨ih1, ih2⟩ := ih
    have hnp : 0 ≤ (n : Int) * p := mul_nonneg (Int.ofNat_nonneg n) hp
    have hsucc : ((n + 1 : Nat) : Int) * p = (n : Int) * p + p := by
      push_cast; ring
    constructor
    · intro k hk
      rw [hsucc] at hk
      simp only [for_rows, List.foldl_append]
      rw [hrow, if_neg (by omega)]
      exact ih1 k (by omega)
    · intro i j hi hj0 hj
      simp only [for_rows, List.foldl_append]
      rw [hrow]
      by_cases hin : i = n
      · subst hin
        rw [if_pos (by omega)]
        congr 1
        omega
      · have hlt : i + 1 ≤ n := by omega
        have hle : ((i : Int) + 1) * p ≤ (n : Int) * p :=
          mul_le_mul_of_nonneg_right (by exact_mod_cast hlt) hp
        have hexp : ((i : Int) + 1) * p = (i : Int) * p + p := by ring
        rw [if_neg (by omega)]
        exact ih2 i j (by omega) hj0 hj

theorem plane_ok (base p : Int) (hp : 0 ≤ p) (row : Nat → List memset_call)
    (hrow : ∀ (i : Nat) (m : memset_call), m ∈ row i →
      0 ≤ m.n ∧ base + (i : Int) * p ≤ m.dst ∧ m.dst + m.n ≤ base + (i : Int) * p + p)
    (n : Nat) (m : memset_call) (hm : m ∈ for_rows row n) :
    0 ≤ m.n ∧ base ≤ m.dst ∧ m.dst + m.n ≤ base + (n : Int) * p := by
  obtain ⟨i, hi, hmi⟩ := (mem_for_rows row m n).mp hm
  obtain ⟨h1, h2, h3⟩ := hrow i m hmi
  have hip : 0 ≤ (i : Int) * p := mul_nonneg (Int.ofNat_nonneg i) hp
  have hlt : i + 1 ≤ n := by omega
  have hle : ((i : Int) + 1) * p ≤ (n : Int) * p :=
    mul_le_mul_of_nonneg_right (by exact_mod_cast hlt) hp
  have hexp : ((i : Int) + 1) * p = (i : Int) * p + p := by ring
  refine ⟨h1, by omega, by omega⟩

theorem plane_covers (base p : Int) (row : Nat → List memset_call)
    (hrow : ∀ (i : Nat) (k : Int), base + (i : Int) * p ≤ k → k < base + (i : Int) * p + p →
      ∃ m ∈ row i, m.writes k)
    (n : Nat) (k : Int) (h0 : base ≤ k) (h1 : k < base + (n : Int) * p) :
    ∃ m ∈ for_rows row n, m.writes k := by
  induction n with
  | zero => simp only [Nat.cast_zero, zero_mul, add_zero] at h1; omega
  | succ n ih =>
    have hsucc : ((n + 1 : Nat) : Int) * p = (n : Int) * p + p := by
      push_cast; ring
    rw [hsucc] at h1
    by_cases hk : k < base + (n : Int) * p
    · obtain ⟨m, hm, hw⟩ := ih hk
      exact ⟨m, by simp only [for_rows, List.mem_append]; exact Or.inl hm, hw⟩
    · obtain ⟨m, hm, hw⟩ := hrow n k (by omega) (by omega)
      exact ⟨m, by simp only [for_rows, List.mem_append]; exact Or.inr hm, hw⟩

/-! ## Frame generator: the whole image -/

theorem row_in_plane (i n : Nat) (p j : Int) (hi : i < n) (hp : 0 ≤ p) (hj0 : 0 ≤ j)
    (hj : j < p) : 0 ≤ (i : Int) * p + j ∧ (i : Int) * p + j < (n : Int) * p := by
  have hip : 0 ≤ (i : Int) * p := mul_nonneg (Int.ofNat_nonneg i) hp
  have hlt : i + 1 ≤ n := by omega
  have hle : ((i : Int) + 1) * p ≤ (n : Int) * p :=
    mul_le_mul_of_nonneg_right (by exact_mod_cast hlt) hp
  have hexp : ((i : Int) + 1) * p = (i : Int) * p + p := by ring
  omega

/-- The plane inequalities of `valid_layout` over the integers, rows first. -/
theorem valid_layout_int (d : data_t) (hv : valid_layout d) :
    ((d.layout 0).pitch : Int) < 4294967296 ∧ ((d.layout 1).pitch : Int) < 4294967296
      ∧ ((d.layout 2).pitch : Int) < 4294967296
      ∧ d.width ≤ ((d.layout 0).pitch : Int)
      ∧ Int.tdiv d.width 2 ≤ ((d.layout 1).pitch : Int)
      ∧ Int.tdiv d.width 2 ≤ ((d.layout 2).pitch : Int)
      ∧ ((d.layout 0).offset : Int) + ((d.layout 0).height : Int) * ((d.layout 0).pitch : Int)
        ≤ ((d.layout 1).offset : Int)
      ∧ ((d.layout 1).offset : Int) + ((d.layout 1).height : Int) * ((d.layout 1).pitch : Int)
        ≤ ((d.layout 2).offset : Int)
      ∧ ((d.layout 2).offset : Int) + ((d.layout 2).height : Int) * ((d.layout 2).pitch : Int)
        ≤ (d.image_size : Int) := by
  obtain ⟨h1, h2, h3, h4, h5, h6, h7, h8, h9⟩ := hv
  unfold UINT32_MOD at h1 h2 h3
  refine ⟨by exact_mod_cast h1, by exact_mod_cast h2, by exact_mod_cast h3, h4, h5, h6,
    ?_, ?_, ?_⟩
  · rw [mul_comm]; exact_mod_cast h7
  · rw [mul_comm]; exact_mod_cast h8
  · rw [mul_comm]; exact_mod_cast h9

theorem tdiv_two_facts (x : Int) (hx : 0 ≤ x) : Int.tdiv x 2 = x / 2 :=
  Int.tdiv_eq_ediv hx (by decide)

theorem luma_row_fold (d : data_t) (hv : valid_layout d) (hx0 : 0 ≤ d.line_x)
    (hx : d.line_x + 2 ≤ d.width) (i : Nat) (image : image_t) (k : Int) :
    (luma_row d i).foldl memset image k
      = if ((d.layout 0).offset : Int) + (i : Int) * ((d.layout 0).pitch : Int) ≤ k
          ∧ k < ((d.layout 0).offset : Int) + (i : Int) * ((d.layout 0).pitch : Int)
            + ((d.layout 0).pitch : Int)
        then band_byte (luma_col d i) 76 149 d.line_x 2 d.width
          (k - (((d.layout 0).offset : Int) + (i : Int) * ((d.layout 0).pitch : Int)))
        else image k := by
  obtain ⟨b0, -, -, w0, -, -, -, -, -⟩ := valid_layout_int d hv
  have hpv : (((d.layout 0).pitch : Int) - d.width) % (UINT32_MOD : Int)
      = ((d.layout 0).pitch : Int) - d.width := by
    unfold UINT32_MOD; push_cast; omega
  rw [luma_row_eq, hpv]
  exact band_row_fold _ _ _ _ _ _ _ _ _ hx0 (by decide) hx (by omega) (by omega) image k

theorem chroma_band_facts (d : data_t) (hv : valid_layout d) (hx0 : 0 ≤ d.line_x)
    (hx : d.line_x + 2 ≤ d.width) :
    0 ≤ Int.tdiv d.line_x 2 ∧ Int.tdiv d.line_x 2 + 1 ≤ Int.tdiv d.width 2
      ∧ (((d.layout 1).pitch : Int) - Int.tdiv d.width 2) % (UINT32_MOD : Int)
        = ((d.layout 1).pitch : Int) - Int.tdiv d.width 2
      ∧ (((d.layout 2).pitch : Int) - Int.tdiv d.width 2) % (UINT32_MOD : Int)
        = ((d.layout 2).pitch : Int) - Int.tdiv d.width 2 := by
  obtain ⟨-, b1, b2, -, w1, w2, -, -, -⟩ := valid_layout_int d hv
  have e1 := tdiv_two_facts d.line_x hx0
  have e2 := tdiv_two_facts d.width (by omega)
  unfold UINT32_MOD
  push_cast
  refine ⟨by omega, by omega, by omega, by omega⟩

theorem u_row_fold (d : data_t) (hv : valid_layout d) (hx0 : 0 ≤ d.line_x)
    (hx : d.line_x + 2 ≤ d.width) (i : Nat) (image : image_t) (k : Int) :
    (u_row d i).foldl memset image k
      = if ((d.layout 1).offset : Int) + (i : Int) * ((d.layout 1).pitch : Int) ≤ k
          ∧ k < ((d.layout 1).offset : Int) + (i : Int) * ((d.layout 1).pitch : Int)
            + ((d.layout 1).pitch : Int)
        then band_byte (chroma_col d 84 43 i) 84 43 (Int.tdiv d.line_x 2) 1 (Int.tdiv d.width 2)
          (k - (((d.layout 1).offset : Int) + (i : Int) * ((d.layout 1).pitch : Int)))
        else image k := by
  obtain ⟨c1, c2, c3, -⟩ := chroma_band_facts d hv hx0 hx
  obtain ⟨-, -, -, -, w1, -, -, -, -⟩ := valid_layout_int d hv
  rw [u_row_eq, c3]
  exact band_row_fold _ _ _ _ _ _ _ _ _ c1 (by decide) c2 (by omega) (by omega) image k

theorem v_row_fold (d : data_t) (hv : valid_layout d) (hx0 : 0 ≤ d.line_x)
    (hx : d.line_x + 2 ≤ d.width) (i : Nat) (image : image_t) (k : Int) :
    (v_row d i).foldl memset image k
      = if ((d.layout 2).offset : Int) + (i : Int) * ((d.layout 2).pitch : Int) ≤ k
          ∧ k < ((d.layout 2).offset : Int) + (i : Int) * ((d.layout 2).pitch : Int)
            + ((d.layout 2).pitch : Int)
        then band_byte (chroma_col d 255 21 i) 255 21 (Int.tdiv d.line_x 2) 1
          (Int.tdiv d.width 2)
          (k - (((d.layout 2).offset : Int) + (i : Int) * ((d.layout 2).pitch : Int)))
        else image k := by
  obtain ⟨c1, c2, -, c4⟩ := chroma_band_facts d hv hx0 hx
  obtain ⟨-, -, -, -, -, w2, -, -, -⟩ := valid_layout_int d hv
  rw [v_row_eq, c4]
  exact band_row_fold _ _ _ _ _ _ _ _ _ c1 (by decide) c2 (by omega) (by omega) image k

/-- Under a valid layout and `0 ≤ line_x`, `line_x + 2 ≤ width`, every call of
`render_image` has a non-negative length and stays inside the buffer. -/
theorem render_calls_ok (d : data_t) (hv : valid_layout d) (hx0 : 0 ≤ d.line_x)
    (hx : d.line_x + 2 ≤ d.width) (m : memset_call) (hm : m ∈ render_calls d) :
    memset_ok d.image_size m := by
  obtain ⟨b0, b1, b2, w0, w1, w2, e0, e1, e2⟩ := valid_layout_int d hv
  obtain ⟨c1, c2, c3, c4⟩ := chroma_band_facts d hv hx0 hx
  have hpv : (((d.layout 0).pitch : Int) - d.width) % (UINT32_MOD : Int)
      = ((d.layout 0).pitch : Int) - d.width := by
    unfold UINT32_MOD; push_cast; omega
  have n0 : (0 : Int) ≤ ((d.layout 0).height : Int) * ((d.layout 0).pitch : Int) :=
    mul_nonneg (Int.ofNat_nonneg _) (Int.ofNat_nonneg _)
  have n1 : (0 : Int) ≤ ((d.layout 1).height : Int) * ((d.layout 1).pitch : Int) :=
    mul_nonneg (Int.ofNat_nonneg _) (Int.ofNat_nonneg _)
  have n2 : (0 : Int) ≤ ((d.layout 2).height : Int) * ((d.layout 2).pitch : Int) :=
    mul_nonneg (Int.ofNat_nonneg _) (Int.ofNat_nonneg _)
  have o0 : (0 : Int) ≤ ((d.layout 0).offset : Int) := Int.ofNat_nonneg _
  simp only [render_calls, List.mem_append] at hm
  unfold memset_ok
  rcases hm with (hm | hm) | hm
  · obtain ⟨r1, r2, r3⟩ := plane_ok ((d.layout 0).offset : Int) ((d.layout 0).pitch : Int)
      (Int.ofNat_nonneg _) (luma_row d) (by
        intro i m hmi
        rw [luma_row_eq, hpv] at hmi
        obtain ⟨q1, q2, q3⟩ := band_row_ok _ _ _ _ _ _ _ _ hx0 (by decide) hx (by omega) m hmi
        exact ⟨q1, q2, by omega⟩) _ m hm
    omega
  · obtain ⟨r1, r2, r3⟩ := plane_ok ((d.layout 1).offset : Int) ((d.layout 1).pitch : Int)
      (Int.ofNat_nonneg _) (u_row d) (by
        intro i m hmi
        rw [u_row_eq, c3] at hmi
        obtain ⟨q1, q2, q3⟩ := band_row_ok _ _ _ _ _ _ _ _ c1 (by decide) c2 (by omega) m hmi
        exact ⟨q1, q2, by omega⟩) _ m hm
    omega
  · obtain ⟨r1, r2, r3⟩ := plane_ok ((d.layout 2).offset : Int) ((d.layout 2).pitch : Int)
      (Int.ofNat_nonneg _) (v_row d) (by
        intro i m hmi
        rw [v_row_eq, c4] at hmi
        obtain ⟨q1, q2, q3⟩ := band_row_ok _ _ _ _ _ _ _ _ c1 (by decide) c2 (by omega) m hmi
        exact ⟨q1, q2, by omega⟩) _ m hm
    omega

theorem render_image_eq (d : data_t) (hv : valid_layout d) (hx0 : 0 ≤ d.line_x)
    (hx : d.line_x + 2 ≤ d.width) (image : image_t) :
    render_image d image = some ((render_calls d).foldl memset image) :=
  run_memsets_eq _ _ image (render_calls_ok d hv hx0 hx)

theorem luma_byte_eq (d : data_t) (hy0 : 0 ≤ d.line_y) (i j : Nat) :
    band_byte (luma_col d i) 76 149 d.line_x 2 d.width (j : Int) = luma_spec d i j := by
  have e1 := tdiv_two_facts d.line_y hy0
  have e2 := tdiv_two_facts (i : Int) (Int.ofNat_nonneg i)
  simp only [band_byte, luma_col, luma_spec, e1, e2]
  split_ifs <;> first | rfl | omega

theorem chroma_byte_eq (d : data_t) (hi pad : Nat) (hw : 0 < d.width) (hh : 0 < d.height)
    (hy0 : 0 ≤ d.line_y) (hx0 : 0 ≤ d.line_x) (i j : Nat) :
    band_byte (chroma_col d hi pad i) hi pad (Int.tdiv d.line_x 2) 1 (Int.tdiv d.width 2)
      (j : Int) = chroma_spec d hi 128 pad i j := by
  have e1 := tdiv_two_facts d.line_y hy0
  have e2 := tdiv_two_facts d.line_x hx0
  have e3 := tdiv_two_facts d.width (le_of_lt hw)
  have e4 := tdiv_two_facts d.height (le_of_lt hh)
  simp only [band_byte, chroma_col, chroma_spec, e1, e2, e3, e4]
  split_ifs <;> first | rfl | omega

/-- The image left by the calls of `render_image`, plane by plane. -/
theorem render_fold (d : data_t) (hv : valid_layout d) (hx0 : 0 ≤ d.line_x)
    (hx : d.line_x + 2 ≤ d.width) (image : image_t) :
    (∀ (i : Nat) (j : Int), i < (d.layout 0).height → 0 ≤ j → j < ((d.layout 0).pitch : Int) →
        (render_calls d).foldl memset image
            (((d.layout 0).offset : Int) + (i : Int) * ((d.layout 0).pitch : Int) + j)
          = band_byte (luma_col d i) 76 149 d.line_x 2 d.width j)
      ∧ (∀ (i : Nat) (j : Int), i < (d.layout 1).height → 0 ≤ j →
          j < ((d.layout 1).pitch : Int) →
        (render_calls d).foldl memset image
            (((d.layout 1).offset : Int) + (i : Int) * ((d.layout 1).pitch : Int) + j)
          = band_byte (chroma_col d 84 43 i) 84 43 (Int.tdiv d.line_x 2) 1
              (Int.tdiv d.width 2) j)
      ∧ (∀ (i : Nat) (j : Int), i < (d.layout 2).height → 0 ≤ j →
          j < ((d.layout 2).pitch : Int) →
        (render_calls d).foldl memset image
            (((d.layout 2).offset : Int) + (i : Int) * ((d.layout 2).pitch : Int) + j)
          = band_byte (chroma_col d 255 21 i) 255 21 (Int.tdiv d.line_x 2) 1
              (Int.tdiv d.width 2) j) := by
  obtain ⟨b0, b1, b2, w0, w1, w2, e0, e1, e2⟩ := valid_layout_int d hv
  have n1 : (0 : Int) ≤ ((d.layout 1).height : Int) * ((d.layout 1).pitch : Int) :=
    mul_nonneg (Int.ofNat_nonneg _) (Int.ofNat_nonneg _)
  have pl0 := fun img => plane_fold ((d.layout 0).offset : Int) ((d.layout 0).pitch : Int)
    (Int.ofNat_nonneg _) (luma_row d)
    (fun i j => band_byte (luma_col d i) 76 149 d.line_x 2 d.width j)
    (fun i image k => luma_row_fold d hv hx0 hx i image k) (d.layout 0).height img
  have pl1 := fun img => plane_fold ((d.layout 1).offset : Int) ((d.layout 1).pitch : Int)
    (Int.ofNat_nonneg _) (u_row d)
    (fun i j => band_byte (chroma_col d 84 43 i) 84 43 (Int.tdiv d.line_x 2) 1
      (Int.tdiv d.width 2) j)
    (fun i image k => u_row_fold d hv hx0 hx i image k) (d.layout 1).height img
  have pl2 := fun img => plane_fold ((d.layout 2).offset : Int) ((d.layout 2).pitch : Int)
    (Int.ofNat_nonneg _) (v_row d)
    (fun i j => band_byte (chroma_col d 255 21 i) 255 21 (Int.tdiv d.line_x 2) 1
      (Int.tdiv d.width 2) j)
    (fun i image k => v_row_fold d hv hx0 hx i image k) (d.layout 2).height img
  simp only [render_calls, List.foldl_append]
  refine ⟨?_, ?_, ?_⟩
  · intro i j hi hj0 hj
    obtain ⟨r0, r1⟩ := row_in_plane i _ _ j hi (Int.ofNat_nonneg _) hj0 hj
    rw [(pl2 _).1 _ (Or.inl (by omega)), (pl1 _).1 _ (Or.inl (by omega))]
    exact (pl0 _).2 i j hi hj0 hj
  · intro i j hi hj0 hj
    obtain ⟨r0, r1⟩ := row_in_plane i _ _ j hi (Int.ofNat_nonneg _) hj0 hj
    rw [(pl2 _).1 _ (Or.inl (by omega))]
    exact (pl1 _).2 i j hi hj0 hj
  · intro i j hi hj0 hj
    exact (pl2 _).2 i j hi hj0 hj

/-- C8: for every valid layout, positive width and height, `line_y` in
`[0, height)` and `line_x` with `0 ≤ line_x` and `line_x + 2 ≤ width`,
`render_image` succeeds and the byte at `layout[0].offset + i * layout[0].pitch
+ j`, for every row `i` below `layout[0].height` and column `j` below
`layout[0].pitch`, is 149 if `j ≥ width`, else 76 if `j` is `line_x` or
`line_x + 1`, else the row colour: 76 if `i / 2 = line_y / 2`, else 255 if
`i < height`, else 149. -/
theorem luma_plane_content (d : data_t) (image : image_t) (hv : valid_layout d)
    (_hw : 0 < d.width) (_hh : 0 < d.height) (hy0 : 0 ≤ d.line_y) (_hy : d.line_y < d.height)
    (hx0 : 0 ≤ d.line_x) (hx : d.line_x + 2 ≤ d.width) :
    ∃ out : image_t, render_image d image = some out
      ∧ ∀ i j : Nat, i < (d.layout 0).height → j < (d.layout 0).pitch →
        out (((d.layout 0).offset + i * (d.layout 0).pitch + j : Nat) : Int)
          = luma_spec d i j := by
  refine ⟨_, render_image_eq d hv hx0 hx image, ?_⟩
  intro i j hi hj
  have hf := (render_fold d hv hx0 hx image).1 i (j : Int) hi (Int.ofNat_nonneg _)
    (by exact_mod_cast hj)
  push_cast
  rw [hf]
  exact luma_byte_eq d hy0 i j

/-- C9: for every valid layout, positive width and height, `line_y` in
`[0, height)` and `line_x` with `0 ≤ line_x` and `line_x + 2 ≤ width`,
`render_image` succeeds and, for chroma plane 1 with colours (84, 128, 43) and
chroma plane 2 with colours (255, 128, 21), the byte at `layout[p].offset
+ i * layout[p].pitch + j`, for every row `i` below `layout[p].height` and
column `j` below `layout[p].pitch`, is pad if `j ≥ width / 2`, else highlight
if `j = line_x / 2`, else the row colour: highlight if `i = line_y / 2`, else
foreground if `i < height / 2`, else pad. -/
theorem chroma_plane_content (d : data_t) (image : image_t) (hv : valid_layout d)
    (hw : 0 < d.width) (hh : 0 < d.height) (hy0 : 0 ≤ d.line_y) (_hy : d.line_y < d.height)
    (hx0 : 0 ≤ d.line_x) (hx : d.line_x + 2 ≤ d.width) :
    ∃ out : image_t, render_image d image = some out
      ∧ (∀ i j : Nat, i < (d.layout 1).height → j < (d.layout 1).pitch →
        out (((d.layout 1).offset + i * (d.layout 1).pitch + j : Nat) : Int)
          = chroma_spec d 84 128 43 i j)
      ∧ (∀ i j : Nat, i < (d.layout 2).height → j < (d.layout 2).pitch →
        out (((d.layout 2).offset + i * (d.layout 2).pitch + j : Nat) : Int)
          = chroma_spec d 255 128 21 i j) := by
  refine ⟨_, render_image_eq d hv hx0 hx image, ?_, ?_⟩
  · intro i j hi hj
    have hf := (render_fold d hv hx0 hx image).2.1 i (j : Int) hi (Int.ofNat_nonneg _)
      (by exact_mod_cast hj)
    push_cast
    rw [hf]
    exact chroma_byte_eq d 84 43 hw hh hy0 hx0 i j
  · intro i j hi hj
    have hf := (render_fold d hv hx0 hx image).2.2 i (j : Int) hi (Int.ofNat_nonneg _)
      (by exact_mod_cast hj)
    push_cast
    rw [hf]
    exact chroma_byte_eq d 255 21 hw hh hy0 hx0 i j

theorem luma_plane_content_witness :
    valid_layout (main_data 4 2 2 1)
      ∧ ∃ out : image_t, render_image (main_data 4 2 2 1) (fun _ => 0) = some out
        ∧ ∀ i j : Nat, i < ((main_data 4 2 2 1).layout 0).height →
          j < ((main_data 4 2 2 1).layout 0).pitch →
          out ((((main_data 4 2 2 1).layout 0).offset
              + i * ((main_data 4 2 2 1).layout 0).pitch + j : Nat) : Int)
            = luma_spec (main_data 4 2 2 1) i j :=
  ⟨by decide,
    luma_plane_content (main_data 4 2 2 1) (fun _ => 0) (by decide) (by decide) (by decide)
      (by decide) (by decide) (by decide) (by decide)⟩

theorem chroma_plane_content_witness :
    valid_layout (main_data 4 2 2 1)
      ∧ ∃ out : image_t, render_image (main_data 4 2 2 1) (fun _ => 0) = some out
        ∧ (∀ i j : Nat, i < ((main_data 4 2 2 1).layout 1).height →
          j < ((main_data 4 2 2 1).layout 1).pitch →
          out ((((main_data 4 2 2 1).layout 1).offset
              + i * ((main_data 4 2 2 1).layout 1).pitch + j : Nat) : Int)
            = chroma_spec (main_data 4 2 2 1) 84 128 43 i j)
        ∧ (∀ i j : Nat, i < ((main_data 4 2 2 1).layout 2).height →
          j < ((main_data 4 2 2 1).layout 2).pitch →
          out ((((main_data 4 2 2 1).layout 2).offset
              + i * ((main_data 4 2 2 1).layout 2).pitch + j : Nat) : Int)
            = chroma_spec (main_data 4 2 2 1) 255 128 21 i j) :=
  ⟨by decide,
    chroma_plane_content (main_data 4 2 2 1) (fun _ => 0) (by decide) (by decide) (by decide)
      (by decide) (by decide) (by decide) (by decide)⟩

/-! ## Frame generator on the layout of `main` -/

/-- The layout of `main` is valid whenever its arithmetic does not wrap. -/
theorem main_data_valid (w h lx ly : Int) (hw : 0 < w) (hw' : w ≤ INT_MAX) (hh : 0 < h)
    (hh' : h ≤ INT_MAX) (hn : layout_no_wrap w h) : valid_layout (main_data w h lx ly) := by
  obtain ⟨a1, a2, a3, b1, b2, b3⟩ := luma_dims w h hw hw' hh hh'
  obtain ⟨e1, e2, e3⟩ := layout_exact w h hn
  have t := tdiv_two_facts w (le_of_lt hw)
  unfold valid_layout
  simp only [main_data]
  rw [e3, e2, e1]
  simp only [main_layout_0, main_layout_1, main_layout_2]
  unfold INT_MAX at hw'
  unfold UINT32_MOD
  refine ⟨by omega, by omega, by omega, a2, by omega, by omega, ?_, ?_, ?_⟩ <;> simp

/-- The plane boundaries of `main` over the integers, rows first. -/
theorem main_data_bounds (w h lx ly : Int) (hn : layout_no_wrap w h) :
    (((main_data w h lx ly).layout 0).offset : Int) = 0
      ∧ (((main_data w h lx ly).layout 1).offset : Int)
        = (((main_data w h lx ly).layout 0).height : Int)
          * (((main_data w h lx ly).layout 0).pitch : Int)
      ∧ (((main_data w h lx ly).layout 2).offset : Int)
        = (((main_data w h lx ly).layout 1).offset : Int)
          + (((main_data w h lx ly).layout 1).height : Int)
            * (((main_data w h lx ly).layout 1).pitch : Int)
      ∧ ((main_data w h lx ly).image_size : Int)
        = (((main_data w h lx ly).layout 2).offset : Int)
          + (((main_data w h lx ly).layout 2).height : Int)
            * (((main_data w h lx ly).layout 2).pitch : Int) := by
  obtain ⟨e1, e2, e3⟩ := layout_exact w h hn
  simp only [main_data]
  refine ⟨rfl, ?_, ?_, ?_⟩
  · rw [e1]; push_cast; ring
  · rw [e2]; push_cast; ring
  · rw [e3]; push_cast; ring

/-- Under a valid layout every byte of each plane is written by some call. -/
theorem render_calls_cover (d : data_t) (hv : valid_layout d) (hw : 0 ≤ d.width) (k : Int) :
    ((((d.layout 0).offset : Int) ≤ k
        ∧ k < ((d.layout 0).offset : Int)
          + ((d.layout 0).height : Int) * ((d.layout 0).pitch : Int))
      ∨ (((d.layout 1).offset : Int) ≤ k
        ∧ k < ((d.layout 1).offset : Int)
          + ((d.layout 1).height : Int) * ((d.layout 1).pitch : Int))
      ∨ (((d.layout 2).offset : Int) ≤ k
        ∧ k < ((d.layout 2).offset : Int)
          + ((d.layout 2).height : Int) * ((d.layout 2).pitch : Int))) →
    ∃ m ∈ render_calls d, m.writes k := by
  obtain ⟨b0, b1, b2, w0, w1, w2, -, -, -⟩ := valid_layout_int d hv
  have t := tdiv_two_facts d.width hw
  have hp0 : (((d.layout 0).pitch : Int) - d.width) % (UINT32_MOD : Int)
      = ((d.layout 0).pitch : Int) - d.width := by
    unfold UINT32_MOD; push_cast; omega
  have hp1 : (((d.layout 1).pitch : Int) - Int.tdiv d.width 2) % (UINT32_MOD : Int)
      = ((d.layout 1).pitch : Int) - Int.tdiv d.width 2 := by
    unfold UINT32_MOD; push_cast; omega
  have hp2 : (((d.layout 2).pitch : Int) - Int.tdiv d.width 2) % (UINT32_MOD : Int)
      = ((d.layout 2).pitch : Int) - Int.tdiv d.width 2 := by
    unfold UINT32_MOD; push_cast; omega
  simp only [render_calls, List.mem_append]
  rintro (⟨h0, h1⟩ | ⟨h0, h1⟩ | ⟨h0, h1⟩)
  · obtain ⟨m, hm, hk⟩ := plane_covers ((d.layout 0).offset : Int)
      ((d.layout 0).pitch : Int) (luma_row d) (by
        intro i k q0 q1
        rw [luma_row_eq, hp0]
        exact band_row_covers _ _ _ _ _ _ _ _ k q0 (by omega)) _ k h0 h1
    exact ⟨m, Or.inl (Or.inl hm), hk⟩
  · obtain ⟨m, hm, hk⟩ := plane_covers ((d.layout 1).offset : Int)
      ((d.layout 1).pitch : Int) (u_row d) (by
        intro i k q0 q1
        rw [u_row_eq, hp1]
        exact band_row_covers _ _ _ _ _ _ _ _ k q0 (by omega)) _ k h0 h1
    exact ⟨m, Or.inl (Or.inr hm), hk⟩
  · obtain ⟨m, hm, hk⟩ := plane_covers ((d.layout 2).offset : Int)
      ((d.layout 2).pitch : Int) (v_row d) (by
        intro i k q0 q1
        rw [v_row_eq, hp2]
        exact band_row_covers _ _ _ _ _ _ _ _ k q0 (by omega)) _ k h0 h1
    exact ⟨m, Or.inr hm, hk⟩

/-- C6 fails as stated.  At width 4, height 2 and `line_x = 3`, inside
`[0, width)`, the third call of the first luma row is `memset(y + 5, 76, -1)`
and `render_image` fails on every buffer.  At width 65536, height 65536 the
`uint32_t` size wraps to 2^31 and the second call of luma row 32768 writes
bytes 2^31 and 2^31 + 1, outside `[0, image_size)`. -/
theorem render_unsafe :
    ((0 : Int) ≤ 3 ∧ (3 : Int) < 4
        ∧ (⟨5, 76, -1⟩ : memset_call) ∈ render_calls (main_data 4 2 3 0)
        ∧ ∀ image : image_t, render_image (main_data 4 2 3 0) image = none)
      ∧ ((main_data 65536 65536 0 0).image_size = 2147483648
        ∧ (⟨2147483648, 76, 2⟩ : memset_call) ∈ render_calls (main_data 65536 65536 0 0)
        ∧ ¬ memset_ok (main_data 65536 65536 0 0).image_size ⟨2147483648, 76, 2⟩) := by
  have hm1 : (⟨5, 76, -1⟩ : memset_call) ∈ render_calls (main_data 4 2 3 0) := by
    simp only [render_calls, List.mem_append]
    exact Or.inl (Or.inl ((mem_for_rows _ _ _).mpr ⟨0, by decide, by decide⟩))
  have hm2 : (⟨2147483648, 76, 2⟩ : memset_call)
      ∈ render_calls (main_data 65536 65536 0 0) := by
    simp only [render_calls, List.mem_append]
    exact Or.inl (Or.inl ((mem_for_rows _ _ _).mpr ⟨32768, by decide, by decide⟩))
  refine ⟨⟨by decide, by decide, hm1, ?_⟩, by decide, hm2, by decide⟩
  intro image
  exact run_memsets_none _ _ _ hm1 (by decide) image

/-- C6 amended: for positive `int` width and height whose layout arithmetic
does not wrap, every `line_x` with `0 ≤ line_x` and `line_x + 2 ≤ width` and
every `line_y` in `[0, height)`, `render_image` succeeds on every buffer,
every `memset` it issues has a non-negative length and writes only inside
`[0, image_size)`, and together they write every byte of `[0, image_size)`. -/
theorem render_safe_total (w h lx ly : Int) (hw : 0 < w) (hw' : w ≤ INT_MAX) (hh : 0 < h)
    (hh' : h ≤ INT_MAX) (hn : layout_no_wrap w h) (hx0 : 0 ≤ lx) (hx : lx + 2 ≤ w)
    (_hy0 : 0 ≤ ly) (_hy : ly < h) :
    (∀ image : image_t, ∃ out : image_t, render_image (main_data w h lx ly) image = some out)
      ∧ (∀ m ∈ render_calls (main_data w h lx ly),
        0 ≤ m.n ∧ 0 ≤ m.dst ∧ m.dst + m.n ≤ ((main_data w h lx ly).image_size : Int))
      ∧ (∀ k : Int, 0 ≤ k → k < ((main_data w h lx ly).image_size : Int) →
        ∃ m ∈ render_calls (main_data w h lx ly), m.writes k) := by
  have hv := main_data_valid w h lx ly hw hw' hh hh' hn
  have hx0' : 0 ≤ (main_data w h lx ly).line_x := hx0
  have hx' : (main_data w h lx ly).line_x + 2 ≤ (main_data w h lx ly).width := hx
  refine ⟨fun image => ⟨_, render_image_eq _ hv hx0' hx' image⟩,
    fun m hm => render_calls_ok _ hv hx0' hx' m hm, ?_⟩
  intro k hk0 hk
  obtain ⟨o0, o1, o2, os⟩ := main_data_bounds w h lx ly hn
  apply render_calls_cover _ hv (le_of_lt hw) k
  omega

theorem render_safe_total_witness :
    layout_no_wrap 4 2
      ∧ ((∀ image : image_t, ∃ out : image_t,
          render_image (main_data 4 2 2 1) image = some out)
        ∧ (∀ m ∈ render_calls (main_data 4 2 2 1),
          0 ≤ m.n ∧ 0 ≤ m.dst ∧ m.dst + m.n ≤ ((main_data 4 2 2 1).image_size : Int))
        ∧ (∀ k : Int, 0 ≤ k → k < ((main_data 4 2 2 1).image_size : Int) →
          ∃ m ∈ render_calls (main_data 4 2 2 1), m.writes k)) :=
  ⟨by decide,
    render_safe_total 4 2 2 1 (by decide) (by decide) (by decide) (by decide) (by decide)
      (by decide) (by decide) (by decide) (by decide)⟩

/-! ## Animation state and the lengths of the frame generator -/

theorem advance_even_range (w x : Int) (hw' : w ≤ INT_MAX) (he : w % 2 = 0)
    (hx : x % 2 = 0 ∧ 0 ≤ x ∧ x ≤ w - 2) :
    advance w x % 2 = 0 ∧ 0 ≤ advance w x ∧ advance w x ≤ w - 2 := by
  obtain ⟨x1, x2, x3⟩ := hx
  rw [advance_eq w x x2 (by omega) (by omega)]
  by_cases hlt : x + 2 < w
  · rw [Int.emod_eq_of_lt (by omega) hlt]
    omega
  · have hxw : x + 2 = w := by omega
    rw [hxw, Int.emod_self]
    omega

theorem advance_n_even_range (w : Int) (hw' : w ≤ INT_MAX) (he : w % 2 = 0)
    (n : Nat) : ∀ x : Int, (x % 2 = 0 ∧ 0 ≤ x ∧ x ≤ w - 2) →
      advance_n w n x % 2 = 0 ∧ 0 ≤ advance_n w n x ∧ advance_n w n x ≤ w - 2 := by
  induction n with
  | zero => intro x hx; exact hx
  | succ n ih =>
    intro x hx
    simp only [advance_n]
    exact ih _ (advance_even_range w x hw' he hx)

/-- C10: for every even `int` width of at least 2, after any number of
updates `line_x := (line_x + 2) % width` from `line_x = 0`, `line_x` is even
and `0 ≤ line_x ≤ width - 2`, so the lengths `width - line_x - 2` and
`width / 2 - line_x / 2 - 1` are not negative, and no `memset` of
`render_image` has a negative length. -/
theorem line_x_keeps_lengths (d : data_t) (n : Nat) (hw : 2 ≤ d.width)
    (hw' : d.width ≤ INT_MAX) (he : d.width % 2 = 0)
    (hx : d.line_x = advance_n d.width n 0) :
    d.line_x % 2 = 0 ∧ 0 ≤ d.line_x ∧ d.line_x ≤ d.width - 2
      ∧ 0 ≤ d.width - d.line_x - 2
      ∧ 0 ≤ Int.tdiv d.width 2 - Int.tdiv d.line_x 2 - 1
      ∧ ∀ m ∈ render_calls d, 0 ≤ m.n := by
  obtain ⟨x1, x2, x3⟩ := advance_n_even_range d.width hw' he n 0 (by omega)
  rw [← hx] at x1 x2 x3
  have t1 := tdiv_two_facts d.width (by omega)
  have t2 := tdiv_two_facts d.line_x x2
  refine ⟨x1, x2, x3, by omega, by omega, ?_⟩
  intro m hm
  simp only [render_calls, List.mem_append, mem_for_rows] at hm
  have hmod : ∀ a : Int, 0 ≤ a % (UINT32_MOD : Int) := fun a =>
    Int.emod_nonneg a (by decide)
  rcases hm with (⟨i, -, hm⟩ | ⟨i, -, hm⟩) | ⟨i, -, hm⟩
  · simp only [luma_row, List.mem_cons, List.mem_singleton, List.not_mem_nil, or_false] at hm
    rcases hm with h | h | h | h <;> subst h <;> simp only [] <;>
      first | exact hmod _ | omega
  · simp only [u_row, List.mem_cons, List.mem_singleton, List.not_mem_nil, or_false] at hm
    rcases hm with h | h | h | h <;> subst h <;> simp only [] <;>
      first | exact hmod _ | omega
  · simp only [v_row, List.mem_cons, List.mem_singleton, List.not_mem_nil, or_false] at hm
    rcases hm with h | h | h | h <;> subst h <;> simp only [] <;>
      first | exact hmod _ | omega

theorem line_x_keeps_lengths_witness :
    (main_data 4 2 2 0).line_x % 2 = 0 ∧ 0 ≤ (main_data 4 2 2 0).line_x
      ∧ (main_data 4 2 2 0).line_x ≤ (main_data 4 2 2 0).width - 2
      ∧ 0 ≤ (main_data 4 2 2 0).width - (main_data 4 2 2 0).line_x - 2
      ∧ 0 ≤ Int.tdiv (main_data 4 2 2 0).width 2 - Int.tdiv (main_data 4 2 2 0).line_x 2 - 1
      ∧ ∀ m ∈ render_calls (main_data 4 2 2 0), 0 ≤ m.n :=
  line_x_keeps_lengths (main_data 4 2 2 0) 3 (by decide) (by decide) (by decide) (by decide)

end MmalRendererTest
